import Mathlib

/-!
Shallow embedding of `src/flavio/statistics/probability.py` and formal
verification of the specification claims about it.

Machine reals (Python floats) are modelled by `ℝ`; fallible code (Python
`raise`) is modelled by `Except`; `numpy`/`scipy` library primitives are
modelled by their documented mathematical semantics.
-/

namespace Flavio

open Matrix

/-- Log-density of a univariate normal distribution, the mathematical
semantics of `scipy.stats.norm.logpdf(x, loc, scale)`:
`-(x-loc)^2/(2 scale^2) - log(sqrt(2 pi) * scale)`. -/
noncomputable def norm_logpdf (x loc scale : ℝ) : ℝ :=
  -((x - loc) ^ 2 / (2 * scale ^ 2)) - Real.log (Real.sqrt (2 * Real.pi) * scale)

/-- Density of a univariate normal distribution, the mathematical semantics
of `scipy.stats.norm.pdf(x, loc, scale)`, expressed as `exp` of the
log-density. -/
noncomputable def norm_pdf (x loc scale : ℝ) : ℝ :=
  Real.exp (norm_logpdf x loc scale)

/-- `UniformDistribution.logpdf` (probability.py lines 40-44): returns `0`
outside the half-open interval and `-log(2*half_range)` inside it. -/
noncomputable def UniformDistribution.logpdf (central_value half_range x : ℝ) : ℝ :=
  if x < central_value - half_range ∨ central_value + half_range ≤ x then 0
  else -Real.log (2 * half_range)

/-- `AsymmetricNormalDistribution.logpdf` (probability.py lines 93-104):
two-piece Gaussian with side-dependent rescale factors built from the two
peak densities `p_left`, `p_right` at the central value. -/
noncomputable def AsymmetricNormalDistribution.logpdf
    (central_value right_deviation left_deviation x : ℝ) : ℝ :=
  let p_right := norm_pdf central_value central_value right_deviation
  let p_left := norm_pdf central_value central_value left_deviation
  if x < central_value then
    Real.log (2 * p_right / (p_left + p_right)) + norm_logpdf x central_value left_deviation
  else
    Real.log (2 * p_left / (p_left + p_right)) + norm_logpdf x central_value right_deviation

/-- `HalfNormalDistribution.logpdf` (probability.py lines 115-119).
`np.sign` is modelled by `Real.sign` (same -1/0/1 semantics); the returned
`-np.inf` is modelled as `⊥ : EReal`. -/
noncomputable def HalfNormalDistribution.logpdf
    (central_value standard_deviation x : ℝ) : EReal :=
  if Real.sign standard_deviation * (x - central_value) < 0 then ⊥
  else ((Real.log 2 + norm_logpdf x central_value |standard_deviation| : ℝ) : EReal)

/-- Standard normal cumulative distribution function, the mathematical
semantics of `scipy.stats.norm.cdf`. -/
noncomputable def stdNormalCdf (z : ℝ) : ℝ :=
  ∫ t in Set.Iic z, norm_pdf t 0 1

/-- Standard normal quantile function `Φ⁻¹`, the mathematical semantics of
`scipy.stats.norm.ppf`, modelled as the inverse of `stdNormalCdf`. -/
noncomputable def stdNormalPpf (p : ℝ) : ℝ :=
  Function.invFun stdNormalCdf p

/-- The univariate distribution kinds of probability.py, as a tagged sum.
Each constructor carries exactly the constructor parameters of the Python
class.  `MultivariateNormalDistribution` is kept separate (its central
value is a vector, and `combine_distributions` line 194 asserts a float
central value, so it can never reach the combination loop). -/
inductive Dist where
  | uniform (central_value half_range : ℝ)
  | delta (central_value : ℝ)
  | normal (central_value standard_deviation : ℝ)
  | asymNormal (central_value right_deviation left_deviation : ℝ)
  | halfNormal (central_value standard_deviation : ℝ)
  | numerical (central_value : ℝ) (x y : List ℝ)

/-- The `central_value` attribute stored by `ProbabilityDistribution.__init__`. -/
def Dist.central_value : Dist → ℝ
  | .uniform c _ => c
  | .delta c => c
  | .normal c _ => c
  | .asymNormal c _ _ => c
  | .halfNormal c _ => c
  | .numerical c _ _ => c

/-- The Python `isinstance` tests of the combination loop: is the
distribution a `DeltaDistribution` or a `NormalDistribution`? -/
def isDeltaOrNormal : Dist → Bool
  | .delta _ => true
  | .normal _ _ => true
  | _ => false

/-- Errors raised by `combine_distributions`: the two `ValueError`s of the
loop, plus the `IndexError` an empty argument list would produce at
line 193. -/
inductive CombineError where
  | emptyInput
  | inconsistentCentral
  | unsupportedKind
deriving DecidableEq

/-- The `for pd in probability_distributions` loop of
`combine_distributions` (lines 196-205): checks each element's central
value, skips Deltas, collects Normals (represented here by their
`standard_deviation`), and rejects every other kind. -/
noncomputable def collectGaussians (c : ℝ) : List Dist → Except CombineError (List ℝ)
  | [] => .ok []
  | pd :: rest =>
    if pd.central_value ≠ c then .error .inconsistentCentral
    else
      match pd with
      | .delta _ => collectGaussians c rest
      | .normal _ σ =>
        match collectGaussians c rest with
        | .ok gs => .ok (σ :: gs)
        | .error e => .error e
      | _ => .error .unsupportedKind

/-- `combine_distributions` (probability.py lines 180-207): identity
short-circuit for a single element, then the collection loop, then the
Gaussian convolution `sqrt(sum of squared standard deviations)`. -/
noncomputable def combine_distributions (pds : List Dist) : Except CombineError Dist :=
  match pds with
  | [pd] => .ok pd
  | [] => .error .emptyInput
  | pd :: rest =>
    let c := pd.central_value
    match collectGaussians c (pd :: rest) with
    | .error e => .error e
    | .ok gs => .ok (.normal c (Real.sqrt ((gs.map fun σ => σ ^ 2).sum)))

/-- The standard deviations of the `NormalDistribution` elements of a list,
in order: what the loop of `combine_distributions` collects when it
succeeds. -/
def normalSds : List Dist → List ℝ :=
  List.filterMap fun d =>
    match d with
    | .normal _ σ => some σ
    | _ => none

/-- Error raised by the `GaussianUpperLimit` constructor for an
out-of-range confidence level. -/
inductive ConstructorError where
  | invalidConfidenceLevel

/-- `GaussianUpperLimit.__init__` (probability.py lines 121-132): validates
the confidence level and delegates to `HalfNormalDistribution` with
`central_value = 0` and `standard_deviation = limit * ppf(0.5 + cl/2)`. -/
noncomputable def GaussianUpperLimit.make (limit confidence_level : ℝ) :
    Except ConstructorError Dist :=
  if 1 < confidence_level ∨ confidence_level < 0 then .error .invalidConfidenceLevel
  else .ok (.halfNormal 0 (limit * stdNormalPpf (0.5 + confidence_level / 2)))

/-- Running cumulative sums starting from `acc`: `np.cumsum` semantics. -/
def cumsumFrom (acc : ℝ) : List ℝ → List ℝ
  | [] => []
  | a :: t => (acc + a) :: cumsumFrom (acc + a) t

/-- `np.cumsum`. -/
def cumsum (l : List ℝ) : List ℝ := cumsumFrom 0 l

/-- Overwrite the first element of a list (`_cdf[0] = 0.`). -/
def setFirst (l : List ℝ) (v : ℝ) : List ℝ :=
  match l with
  | [] => []
  | _ :: t => v :: t

/-- Overwrite the last element of a list (`_cdf[-1] = 1.`). -/
def setLast : List ℝ → ℝ → List ℝ
  | [], _ => []
  | [_], v => [v]
  | a :: b :: t, v => a :: setLast (b :: t) v

/-- Piecewise-linear interpolation through a list of `(abscissa, value)`
knots: the mathematical semantics of `scipy.interpolate.interp1d`'s
evaluation (`_evaluate_linear`), which clips the located interval index so
that queries at or beyond the ends use the first/last segment. -/
noncomputable def interpPoints : List (ℝ × ℝ) → ℝ → ℝ
  | [], _ => 0
  | [p], _ => p.2
  | p :: q :: rest, t =>
    if t ≤ q.1 then p.2 + (q.2 - p.2) / (q.1 - p.1) * (t - p.1)
    else interpPoints (q :: rest) t

/-- The clamped empirical CDF values built by
`NumericalDistribution.__init__` (probability.py lines 141-147):
`_cdf = np.cumsum(_y_norm)/_x_range` with `_cdf[0] = 0` and `_cdf[-1] = 1`,
where `_y_norm = y/sum(y)*_x_range`. -/
noncomputable def numericalCdf (x y : List ℝ) : List ℝ :=
  let xrange := x.getLastD 0 - x.headD 0
  let ynorm := y.map fun yi => yi / y.sum * xrange
  let cdf := (cumsum ynorm).map fun v => v / xrange
  setLast (setFirst cdf 0) 1

/-- The knots of the inverse-CDF interpolant
`self.ppf_interp = scipy.interpolate.interp1d(_cdf, x)` built at the end of
`NumericalDistribution.__init__` (line 148). -/
noncomputable def ppfKnots (x y : List ℝ) : List (ℝ × ℝ) :=
  (numericalCdf x y).zip x

/-- The `ValueError` scipy's `interp1d` raises on out-of-range queries. -/
inductive InterpError where
  | boundsError

/-- `NumericalDistribution.logpdf` (probability.py lines 143 and 154-155).
The interpolant is built as `interp1d(x, np.log(_y_norm), fill_value=-np.inf)`
WITHOUT `bounds_error=False`; scipy's `bounds_error` defaults to raising a
`ValueError` whenever `fill_value` is not the string `"extrapolate"`, so an
out-of-range query raises and the fill value is never consulted.  That
library semantics is modelled by the `Except.error` branch here. -/
noncomputable def NumericalDistribution.logpdf (x y : List ℝ) (t : ℝ) :
    Except InterpError ℝ :=
  let xrange := x.getLastD 0 - x.headD 0
  let ynorm := y.map fun yi => yi / y.sum * xrange
  if t < x.headD 0 ∨ x.getLastD 0 < t then .error .boundsError
  else .ok (interpPoints (x.zip (ynorm.map Real.log)) t)

/-- The reference log-density of a multivariate normal distribution, the
mathematical semantics of `scipy.stats.multivariate_normal.logpdf(x, mean,
cov)` for a positive-definite covariance, and also the spec's "ordinary
unscaled multivariate-normal log-density". -/
noncomputable def multivariate_normal_logpdf {k : ℕ} (x mean : Fin k → ℝ)
    (cov : Matrix (Fin k) (Fin k) ℝ) : ℝ :=
  -((k : ℝ) * Real.log (2 * Real.pi) + Real.log cov.det
      + dotProduct (x - mean) ((cov⁻¹).mulVec (x - mean))) / 2

/-- `MultivariateNormalDistribution.logpdf` (probability.py lines 167-173):
rescale the point and the central value by the square roots of the diagonal
of the covariance, evaluate the library log-density on the rescaled
covariance `covariance/np.outer(err, err)`, and add
`log(det(cov_scaled)/det(cov))/2`. -/
noncomputable def MultivariateNormalDistribution.logpdf {k : ℕ}
    (central_value : Fin k → ℝ) (covariance : Matrix (Fin k) (Fin k) ℝ)
    (x : Fin k → ℝ) : ℝ :=
  let err : Fin k → ℝ := fun i => Real.sqrt (covariance i i)
  let cov_scaled : Matrix (Fin k) (Fin k) ℝ :=
    Matrix.of fun i j => covariance i j / (err i * err j)
  let pdf_scaled :=
    multivariate_normal_logpdf (fun i => x i / err i) (fun i => central_value i / err i)
      cov_scaled
  pdf_scaled + Real.log (cov_scaled.det / covariance.det) / 2

/-- Shape of a value returned by a `get_random` method: a Python scalar or
a numpy array (modelled as a list). -/
inductive Sample where
  | scalar (v : ℝ)
  | vec (vs : List ℝ)

/-- `DeltaDistribution.get_random` (probability.py lines 50-54): returns
the central value itself, or `central_value * np.ones(size)` when a size is
given. -/
def DeltaDistribution.get_random (central_value : ℝ) (size : Option ℕ) : Sample :=
  match size with
  | none => .scalar central_value
  | some n => .vec (List.replicate n central_value)

/-- `AsymmetricNormalDistribution.get_random` (probability.py lines 83-91).
The random draws are passed in explicitly: `u` models the
`np.random.uniform()` draw and `z_right`/`z_left` the `np.random.normal`
draws of the two branches.  The `size` argument is accepted but never used
by the source, which always returns a single scalar. -/
noncomputable def AsymmetricNormalDistribution.get_random
    (central_value right_deviation left_deviation : ℝ) (_size : Option ℕ)
    (u z_right z_left : ℝ) : Sample :=
  let a := |left_deviation / (right_deviation + left_deviation)|
  if a < u then .scalar (central_value + |z_right|)
  else .scalar (central_value - |z_left|)

/-- The well-formedness relation between consecutive knots of an
interpolation table: strictly increasing abscissas and non-decreasing
values. -/
def KnotRel (p q : ℝ × ℝ) : Prop := p.1 < q.1 ∧ p.2 ≤ q.2

/-! ## Helper lemmas -/

/-- Unfolding `combine_distributions` on a list of two or more elements. -/
theorem combine_cons_cons (a b : Dist) (t : List Dist) :
    combine_distributions (a :: b :: t) =
      match collectGaussians a.central_value (a :: b :: t) with
      | .error e => .error e
      | .ok gs => .ok (.normal a.central_value (Real.sqrt ((gs.map fun σ => σ ^ 2).sum))) :=
  rfl

/-- Unfolding one step of the collection loop. -/
theorem collectGaussians_cons (c : ℝ) (pd : Dist) (rest : List Dist) :
    collectGaussians c (pd :: rest) =
      if pd.central_value ≠ c then Except.error CombineError.inconsistentCentral
      else
        match pd with
        | .delta _ => collectGaussians c rest
        | .normal _ σ =>
          match collectGaussians c rest with
          | .ok gs => .ok (σ :: gs)
          | .error e => .error e
        | _ => Except.error CombineError.unsupportedKind :=
  rfl

/-- When every element of the list has central value `c` and is a Delta or
a Normal, the collection loop succeeds and collects exactly the standard
deviations of the Normal elements, in order. -/
theorem collectGaussians_ok (c : ℝ) :
    ∀ l : List Dist, (∀ pd ∈ l, pd.central_value = c) →
      (∀ pd ∈ l, isDeltaOrNormal pd = true) →
      collectGaussians c l = Except.ok (normalSds l) := by
  intro l
  induction l with
  | nil => intro _ _; rfl
  | cons pd rest ih =>
    intro hc hk
    have hpd : pd.central_value = c := hc pd (List.mem_cons_self pd rest)
    have hrest : collectGaussians c rest = Except.ok (normalSds rest) :=
      ih (fun q hq => hc q (List.mem_cons_of_mem pd hq))
        (fun q hq => hk q (List.mem_cons_of_mem pd hq))
    have hkpd : isDeltaOrNormal pd = true := hk pd (List.mem_cons_self pd rest)
    cases pd with
    | delta c0 =>
      rw [collectGaussians_cons, if_neg (not_not_intro hpd)]
      show collectGaussians c rest = _
      rw [hrest]
      simp only [normalSds, List.filterMap_cons]
    | normal c0 σ =>
      rw [collectGaussians_cons, if_neg (not_not_intro hpd)]
      show (match collectGaussians c rest with
        | .ok gs => Except.ok (σ :: gs)
        | .error e => Except.error e) = _
      rw [hrest]
      simp only [normalSds, List.filterMap_cons]
    | uniform c0 h0 => simp [isDeltaOrNormal] at hkpd
    | asymNormal c0 r0 l0 => simp [isDeltaOrNormal] at hkpd
    | halfNormal c0 s0 => simp [isDeltaOrNormal] at hkpd
    | numerical c0 xs ys => simp [isDeltaOrNormal] at hkpd

/-- The collection loop skips any run of Deltas with the right central
value. -/
theorem collectGaussians_replicate_delta (c : ℝ) :
    ∀ n : ℕ, collectGaussians c (List.replicate n (Dist.delta c)) = Except.ok [] := by
  intro n
  induction n with
  | zero => rfl
  | succ m ih =>
    rw [List.replicate_succ, collectGaussians_cons]
    simp only [Dist.central_value, ne_eq, eq_self_iff_true, not_true_eq_false, if_false]
    exact ih

/-- On `pre ++ pd :: post` where every element of `pre` passes both loop
checks, the loop fails at `pd`: with the inconsistent-central error when
`pd`'s central value differs from `c`, else with the unsupported-kind error
when `pd` is neither a Delta nor a Normal. -/
theorem collectGaussians_first_offender (c : ℝ) :
    ∀ (pre : List Dist) (pd : Dist) (post : List Dist),
      (∀ q ∈ pre, q.central_value = c ∧ isDeltaOrNormal q = true) →
      (pd.central_value ≠ c →
          collectGaussians c (pre ++ pd :: post) = Except.error CombineError.inconsistentCentral) ∧
      (pd.central_value = c → isDeltaOrNormal pd = false →
          collectGaussians c (pre ++ pd :: post) = Except.error CombineError.unsupportedKind) := by
  intro pre
  induction pre with
  | nil =>
    intro pd post _
    constructor
    · intro hne
      rw [List.nil_append, collectGaussians_cons, if_pos hne]
    · intro hc hpd
      cases pd with
      | delta c0 => simp [isDeltaOrNormal] at hpd
      | normal c0 σ => simp [isDeltaOrNormal] at hpd
      | uniform c0 h0 =>
        rw [List.nil_append, collectGaussians_cons, if_neg (not_not_intro hc)]
      | asymNormal c0 r0 l0 =>
        rw [List.nil_append, collectGaussians_cons, if_neg (not_not_intro hc)]
      | halfNormal c0 s0 =>
        rw [List.nil_append, collectGaussians_cons, if_neg (not_not_intro hc)]
      | numerical c0 xs ys =>
        rw [List.nil_append, collectGaussians_cons, if_neg (not_not_intro hc)]
  | cons q pre ih =>
    intro pd post hpre
    have hq : q.central_value = c ∧ isDeltaOrNormal q = true :=
      hpre q (List.mem_cons_self q pre)
    have ihq := ih pd post fun r hr => hpre r (List.mem_cons_of_mem q hr)
    constructor
    · intro hne
      have htail := ihq.1 hne
      cases q with
      | delta c0 =>
        rw [List.cons_append, collectGaussians_cons, if_neg (not_not_intro hq.1)]
        exact htail
      | normal c0 σ =>
        rw [List.cons_append, collectGaussians_cons, if_neg (not_not_intro hq.1)]
        show (match collectGaussians c (pre ++ pd :: post) with
          | .ok gs => Except.ok (σ :: gs)
          | .error e => Except.error e) = _
        rw [htail]
      | uniform c0 h0 => simp [isDeltaOrNormal] at hq
      | asymNormal c0 r0 l0 => simp [isDeltaOrNormal] at hq
      | halfNormal c0 s0 => simp [isDeltaOrNormal] at hq
      | numerical c0 xs ys => simp [isDeltaOrNormal] at hq
    · intro hc hpd
      have htail := ihq.2 hc hpd
      cases q with
      | delta c0 =>
        rw [List.cons_append, collectGaussians_cons, if_neg (not_not_intro hq.1)]
        exact htail
      | normal c0 σ =>
        rw [List.cons_append, collectGaussians_cons, if_neg (not_not_intro hq.1)]
        show (match collectGaussians c (pre ++ pd :: post) with
          | .ok gs => Except.ok (σ :: gs)
          | .error e => Except.error e) = _
        rw [htail]
      | uniform c0 h0 => simp [isDeltaOrNormal] at hq
      | asymNormal c0 r0 l0 => simp [isDeltaOrNormal] at hq
      | halfNormal c0 s0 => simp [isDeltaOrNormal] at hq
      | numerical c0 xs ys => simp [isDeltaOrNormal] at hq

/-- Every list with an element satisfying a decidable predicate splits at
the first such element. -/
theorem exists_first_split {P : Dist → Prop} [DecidablePred P] :
    ∀ l : List Dist, (∃ x ∈ l, P x) →
      ∃ pre x post, l = pre ++ x :: post ∧ P x ∧ ∀ q ∈ pre, ¬P q := by
  intro l
  induction l with
  | nil => rintro ⟨x, hx, _⟩; exact absurd hx (List.not_mem_nil x)
  | cons a t ih =>
    intro hex
    by_cases ha : P a
    · exact ⟨[], a, t, rfl, ha, by intro q hq; exact absurd hq (List.not_mem_nil q)⟩
    · have htex : ∃ x ∈ t, P x := by
        rcases hex with ⟨x, hx, hPx⟩
        rcases List.mem_cons.mp hx with h | h
        · exact absurd (h ▸ hPx) ha
        · exact ⟨x, h, hPx⟩
      rcases ih htex with ⟨pre, x, post, heq, hPx, hpre⟩
      refine ⟨a :: pre, x, post, by rw [heq, List.cons_append], hPx, ?_⟩
      intro q hq
      rcases List.mem_cons.mp hq with h | h
      · exact h ▸ ha
      · exact hpre q h

/-! ## Claims -/

/-- Claim C1: for every non-empty list of univariate distributions sharing
one central value `c`, `combine_distributions` returns the single element
unchanged when the list has exactly one element; otherwise, when every
element is a Delta or a Normal, it returns a new Normal with central value
`c` and standard deviation the square root of the sum of the squared
standard deviations of the Normal inputs (the Deltas being discarded). -/
theorem claim_C1_combine (l : List Dist) (c : ℝ) (hne : l ≠ [])
    (hc : ∀ pd ∈ l, pd.central_value = c) :
    (∀ d : Dist, l = [d] → combine_distributions l = Except.ok d) ∧
    (2 ≤ l.length → (∀ pd ∈ l, isDeltaOrNormal pd = true) →
      combine_distributions l =
        Except.ok (Dist.normal c (Real.sqrt (((normalSds l).map fun σ => σ ^ 2).sum)))) := by
  constructor
  · rintro d rfl
    rfl
  · intro hlen hk
    match l, hne with
    | [a], _ => simp at hlen
    | a :: b :: t, _ =>
      have hca : a.central_value = c := hc a (List.mem_cons_self a (b :: t))
      rw [combine_cons_cons, hca, collectGaussians_ok c (a :: b :: t) hc hk]

/-- Witness for claim C1 at the spec's own example:
`combine_distributions([Normal(5,1), Normal(5,2)])` is `Normal(5, sqrt 5)`. -/
theorem claim_C1_combine_witness :
    combine_distributions [Dist.normal 5 1, Dist.normal 5 2] =
      Except.ok (Dist.normal 5 (Real.sqrt 5)) := by
  have h := (claim_C1_combine [Dist.normal 5 1, Dist.normal 5 2] 5 (by simp)
      (by intro pd hpd; fin_cases hpd <;> rfl)).2
      (by simp)
      (by intro pd hpd; fin_cases hpd <;> rfl)
  rw [h]
  norm_num [normalSds, List.filterMap_cons]

/-- Counterexample to claim C2 as stated: in
`[Normal(5,1), Uniform(5,2), Normal(6,1)]` some element's central value
differs from the first element's, yet the call does not raise the
inconsistent-input error: the loop reaches the unsupported `Uniform`
element first and raises the unsupported-operation error instead. -/
theorem claim_C2_counterexample :
    (∃ pd ∈ ([Dist.normal 5 1, Dist.uniform 5 2, Dist.normal 6 1] : List Dist),
        pd.central_value ≠ (Dist.normal 5 1).central_value) ∧
    combine_distributions [Dist.normal 5 1, Dist.uniform 5 2, Dist.normal 6 1] =
      Except.error CombineError.unsupportedKind ∧
    CombineError.unsupportedKind ≠ CombineError.inconsistentCentral := by
  refine ⟨⟨Dist.normal 6 1, by simp, by norm_num [Dist.central_value]⟩, ?_, by decide⟩
  rw [combine_cons_cons]
  have h : collectGaussians (Dist.normal 5 1).central_value
      [Dist.normal 5 1, Dist.uniform 5 2, Dist.normal 6 1] =
      Except.error CombineError.unsupportedKind := by
    have := (collectGaussians_first_offender (5 : ℝ) [Dist.normal 5 1] (Dist.uniform 5 2)
        [Dist.normal 6 1] (by intro q hq; fin_cases hq; exact ⟨rfl, rfl⟩)).2 rfl rfl
    exact this
  rw [h]

/-- Claim C2, amended: scanning the list in order, the call fails at the
first element that either has a mismatching central value (raising the
inconsistent-input error) or — central value matching — is neither a Delta
nor a Normal (raising the unsupported-operation error).  In particular,
when all central values are equal and some element is of an unsupported
kind, the unsupported-operation error is raised; in every case the call
fails fatally with no result. -/
theorem claim_C2_amended (a : Dist) (rest : List Dist) (hrest : rest ≠ []) :
    (∀ (pre : List Dist) (pd : Dist) (post : List Dist),
        a :: rest = pre ++ pd :: post →
        (∀ q ∈ pre, q.central_value = a.central_value ∧ isDeltaOrNormal q = true) →
        (pd.central_value ≠ a.central_value →
            combine_distributions (a :: rest) = Except.error CombineError.inconsistentCentral) ∧
        (pd.central_value = a.central_value → isDeltaOrNormal pd = false →
            combine_distributions (a :: rest) = Except.error CombineError.unsupportedKind)) ∧
    ((∀ pd ∈ a :: rest, pd.central_value = a.central_value) →
        (∃ pd ∈ a :: rest, isDeltaOrNormal pd = false) →
        combine_distributions (a :: rest) = Except.error CombineError.unsupportedKind) := by
  match rest, hrest with
  | b :: t, _ =>
    constructor
    · intro pre pd post hsplit hpre
      have hco := collectGaussians_first_offender a.central_value pre pd post hpre
      constructor
      · intro hne
        rw [combine_cons_cons, hsplit, hco.1 hne]
      · intro hc hk
        rw [combine_cons_cons, hsplit, hco.2 hc hk]
    · intro hcall hex
      have hex2 : ∃ pd ∈ a :: b :: t, isDeltaOrNormal pd = false := hex
      rcases exists_first_split (a :: b :: t) hex2 with ⟨pre, x, post, heq, hPx, hpre⟩
      have hco := collectGaussians_first_offender a.central_value pre x post (by
        intro q hq
        refine ⟨hcall q (heq ▸ List.mem_append_left _ hq), ?_⟩
        have := hpre q hq
        cases hk : isDeltaOrNormal q with
        | true => rfl
        | false => exact absurd hk this)
      rw [combine_cons_cons, heq, hco.2 (hcall x (heq ▸ List.mem_append_right _
        (List.mem_cons_self x post))) hPx]

/-- Witness for the amended claim C2: `[Normal(5,1), Uniform(5,2)]` fails
with the unsupported-operation error. -/
theorem claim_C2_amended_witness :
    combine_distributions [Dist.normal 5 1, Dist.uniform 5 2] =
      Except.error CombineError.unsupportedKind := by
  have h := ((claim_C2_amended (Dist.normal 5 1) [Dist.uniform 5 2] (by simp)).1
      [Dist.normal 5 1] (Dist.uniform 5 2) [] rfl
      (by intro q hq; fin_cases hq; exact ⟨rfl, rfl⟩)).2 rfl rfl
  exact h

/-- Claim C4, evaluation at the failing input: with the tabulated range
`x = [0,1,2]`, querying `logpdf` at `3` raises scipy's out-of-bounds
`ValueError` instead of reporting `-infinity`, because `interp1d` is built
without `bounds_error=False`, so the supplied `fill_value=-np.inf` is never
used. -/
theorem claim_C4_numerical_logpdf_raises :
    NumericalDistribution.logpdf [0, 1, 2] [1, 1, 1] 3 =
      Except.error InterpError.boundsError := by
  norm_num [NumericalDistribution.logpdf]

/-- Claim C5: for positive `half_range`, `UniformDistribution.logpdf`
equals `-log(2*half_range)` exactly on the half-open interval
`[c - h, c + h)` and `0` (not `-infinity`) everywhere outside it, the right
endpoint `c + h` included. -/
theorem claim_C5_uniform_logpdf (central_value half_range x : ℝ)
    (_hh : 0 < half_range) :
    (UniformDistribution.logpdf central_value half_range x =
      if central_value - half_range ≤ x ∧ x < central_value + half_range
      then -Real.log (2 * half_range) else 0) ∧
    UniformDistribution.logpdf central_value half_range (central_value + half_range) = 0 := by
  constructor
  · by_cases h : x < central_value - half_range ∨ central_value + half_range ≤ x
    · rw [UniformDistribution.logpdf, if_pos h, if_neg]
      rcases h with h | h
      · rintro ⟨h1, _⟩; exact absurd h1 (not_le.mpr h)
      · rintro ⟨_, h2⟩; exact absurd h (not_le.mpr h2)
    · rw [UniformDistribution.logpdf, if_neg h, if_pos]
      push_neg at h
      exact h
  · rw [UniformDistribution.logpdf, if_pos (Or.inr le_rfl)]

/-- Witness for claim C5 at `c = 0`, `h = 1`, `x = 2`. -/
theorem claim_C5_uniform_logpdf_witness :
    (UniformDistribution.logpdf 0 1 2 =
      if (0 : ℝ) - 1 ≤ 2 ∧ (2 : ℝ) < 0 + 1 then -Real.log (2 * 1) else 0) ∧
    UniformDistribution.logpdf 0 1 (0 + 1) = 0 :=
  claim_C5_uniform_logpdf 0 1 2 (by norm_num)

/-- Claim C9, evaluation at the failing input:
`AsymmetricNormalDistribution.get_random` ignores its `size` argument —
with `size = 5` it still returns a single scalar for every outcome of the
underlying random draws — while `DeltaDistribution.get_random` honors the
contract (a length-`n` array for `size = n`, a scalar when `size` is
unspecified). -/
theorem claim_C9_asym_get_random_ignores_size :
    (∀ u z_right z_left : ℝ, ∃ v : ℝ,
        AsymmetricNormalDistribution.get_random 0 1 1 (some 5) u z_right z_left =
          Sample.scalar v) ∧
    (∀ (central_value : ℝ) (n : ℕ),
        DeltaDistribution.get_random central_value (some n) =
          Sample.vec (List.replicate n central_value) ∧
        DeltaDistribution.get_random central_value none = Sample.scalar central_value) := by
  constructor
  · intro u zr zl
    rw [AsymmetricNormalDistribution.get_random]
    split
    · exact ⟨_, rfl⟩
    · exact ⟨_, rfl⟩
  · intro c n
    exact ⟨rfl, rfl⟩

/-- Claim C10: combining two or more Delta distributions sharing the same
central value succeeds and yields `Normal(c, 0)`: the zero standard
deviation is rejected neither by the combiner nor by the (validation-free)
`NormalDistribution` constructor. -/
theorem claim_C10_combine_deltas (c : ℝ) (n : ℕ) (h2 : 2 ≤ n) :
    combine_distributions (List.replicate n (Dist.delta c)) =
      Except.ok (Dist.normal c 0) := by
  obtain ⟨m, rfl⟩ : ∃ m, n = m + 2 := ⟨n - 2, by omega⟩
  rw [List.replicate_succ, List.replicate_succ]
  rw [combine_cons_cons]
  have h : collectGaussians (Dist.delta c).central_value
      (Dist.delta c :: Dist.delta c :: List.replicate m (Dist.delta c)) =
      Except.ok [] := by
    have := collectGaussians_replicate_delta c (m + 2)
    rwa [List.replicate_succ, List.replicate_succ] at this
  rw [h]
  show Except.ok (Dist.normal c (Real.sqrt 0)) = _
  rw [Real.sqrt_zero]

/-- Witness for claim C10 at `c = 3`, `n = 2`. -/
theorem claim_C10_combine_deltas_witness :
    combine_distributions (List.replicate 2 (Dist.delta 3)) =
      Except.ok (Dist.normal 3 0) :=
  claim_C10_combine_deltas 3 2 (by norm_num)

/-- Claim C7: for nonzero `standard_deviation`, `HalfNormalDistribution.logpdf`
is `-infinity` strictly on the side of the central value opposite the sign
of the deviation and `log 2` plus the `Normal(c, |sigma|)` log-density on the
populated side, the mode included; and `GaussianUpperLimit` with confidence
level in `[0,1]` constructs exactly a half-normal with central value `0`
and standard deviation `limit * ppf(0.5 + confidence_level/2)`. -/
theorem claim_C7_halfnormal_and_upperlimit
    (central_value standard_deviation limit confidence_level x : ℝ)
    (_hσ : standard_deviation ≠ 0) (hcl0 : 0 ≤ confidence_level)
    (hcl1 : confidence_level ≤ 1) :
    (0 < standard_deviation →
      (x < central_value →
        HalfNormalDistribution.logpdf central_value standard_deviation x = ⊥) ∧
      (central_value ≤ x →
        HalfNormalDistribution.logpdf central_value standard_deviation x =
          ((Real.log 2 + norm_logpdf x central_value |standard_deviation| : ℝ) : EReal))) ∧
    (standard_deviation < 0 →
      (central_value < x →
        HalfNormalDistribution.logpdf central_value standard_deviation x = ⊥) ∧
      (x ≤ central_value →
        HalfNormalDistribution.logpdf central_value standard_deviation x =
          ((Real.log 2 + norm_logpdf x central_value |standard_deviation| : ℝ) : EReal))) ∧
    GaussianUpperLimit.make limit confidence_level =
      Except.ok (Dist.halfNormal 0 (limit * stdNormalPpf (0.5 + confidence_level / 2))) := by
  refine ⟨?_, ?_, ?_⟩
  · intro hpos
    constructor
    · intro hx
      have hcond : Real.sign standard_deviation * (x - central_value) < 0 := by
        rw [Real.sign_of_pos hpos, one_mul]
        linarith
      simp only [HalfNormalDistribution.logpdf]
      rw [if_pos hcond]
    · intro hx
      have hcond : ¬Real.sign standard_deviation * (x - central_value) < 0 := by
        rw [Real.sign_of_pos hpos, one_mul]
        exact not_lt.mpr (by linarith)
      simp only [HalfNormalDistribution.logpdf]
      rw [if_neg hcond]
  · intro hneg
    constructor
    · intro hx
      have hcond : Real.sign standard_deviation * (x - central_value) < 0 := by
        rw [Real.sign_of_neg hneg, neg_one_mul]
        linarith
      simp only [HalfNormalDistribution.logpdf]
      rw [if_pos hcond]
    · intro hx
      have hcond : ¬Real.sign standard_deviation * (x - central_value) < 0 := by
        rw [Real.sign_of_neg hneg, neg_one_mul]
        exact not_lt.mpr (by linarith)
      simp only [HalfNormalDistribution.logpdf]
      rw [if_neg hcond]
  · simp only [GaussianUpperLimit.make]
    rw [if_neg (by rintro (h | h) <;> linarith)]

/-- Witness for claim C7 at `c = 0`, `sigma = 1`, `limit = 1`,
`confidence_level = 1/2`, `x = 1`. -/
theorem claim_C7_halfnormal_and_upperlimit_witness :
    (0 < (1 : ℝ) →
      ((1 : ℝ) < 0 → HalfNormalDistribution.logpdf 0 1 1 = ⊥) ∧
      ((0 : ℝ) ≤ 1 → HalfNormalDistribution.logpdf 0 1 1 =
        ((Real.log 2 + norm_logpdf 1 0 |(1 : ℝ)| : ℝ) : EReal))) ∧
    ((1 : ℝ) < 0 →
      ((0 : ℝ) < 1 → HalfNormalDistribution.logpdf 0 1 1 = ⊥) ∧
      ((1 : ℝ) ≤ 0 → HalfNormalDistribution.logpdf 0 1 1 =
        ((Real.log 2 + norm_logpdf 1 0 |(1 : ℝ)| : ℝ) : EReal))) ∧
    GaussianUpperLimit.make 1 (1 / 2) =
      Except.ok (Dist.halfNormal 0 (1 * stdNormalPpf (0.5 + 1 / 2 / 2))) :=
  claim_C7_halfnormal_and_upperlimit 0 1 1 (1 / 2) 1 (by norm_num) (by norm_num)
    (by norm_num)

/-- Claim C6: for positive deviations, `AsymmetricNormalDistribution.logpdf`
is, left of the mode, `log(2 p_right/(p_left+p_right))` plus the
`Normal(c, left_deviation)` log-density and, at or right of the mode,
`log(2 p_left/(p_left+p_right))` plus the `Normal(c, right_deviation)`
log-density, where `p_left`/`p_right` are the two peak densities at the
mode; consequently the density converges to its value at the mode both from
the left and from the right (continuity at the mode). -/
theorem claim_C6_asym_normal_continuous
    (central_value right_deviation left_deviation : ℝ)
    (_hr : 0 < right_deviation) (_hl : 0 < left_deviation) :
    (∀ x : ℝ, x < central_value →
      AsymmetricNormalDistribution.logpdf central_value right_deviation left_deviation x =
        Real.log (2 * norm_pdf central_value central_value right_deviation /
            (norm_pdf central_value central_value left_deviation +
              norm_pdf central_value central_value right_deviation)) +
          norm_logpdf x central_value left_deviation) ∧
    (∀ x : ℝ, central_value ≤ x →
      AsymmetricNormalDistribution.logpdf central_value right_deviation left_deviation x =
        Real.log (2 * norm_pdf central_value central_value left_deviation /
            (norm_pdf central_value central_value left_deviation +
              norm_pdf central_value central_value right_deviation)) +
          norm_logpdf x central_value right_deviation) ∧
    Filter.Tendsto
      (fun x => Real.exp (AsymmetricNormalDistribution.logpdf central_value
        right_deviation left_deviation x))
      (nhdsWithin central_value (Set.Iio central_value))
      (nhds (Real.exp (AsymmetricNormalDistribution.logpdf central_value
        right_deviation left_deviation central_value))) ∧
    Filter.Tendsto
      (fun x => Real.exp (AsymmetricNormalDistribution.logpdf central_value
        right_deviation left_deviation x))
      (nhdsWithin central_value (Set.Ioi central_value))
      (nhds (Real.exp (AsymmetricNormalDistribution.logpdf central_value
        right_deviation left_deviation central_value))) := by
  have hpl : 0 < norm_pdf central_value central_value left_deviation := Real.exp_pos _
  have hpr : 0 < norm_pdf central_value central_value right_deviation := Real.exp_pos _
  have hleft : ∀ x : ℝ, x < central_value →
      AsymmetricNormalDistribution.logpdf central_value right_deviation left_deviation x =
        Real.log (2 * norm_pdf central_value central_value right_deviation /
            (norm_pdf central_value central_value left_deviation +
              norm_pdf central_value central_value right_deviation)) +
          norm_logpdf x central_value left_deviation := by
    intro x hx
    simp only [AsymmetricNormalDistribution.logpdf]
    rw [if_pos hx]
  have hright : ∀ x : ℝ, central_value ≤ x →
      AsymmetricNormalDistribution.logpdf central_value right_deviation left_deviation x =
        Real.log (2 * norm_pdf central_value central_value left_deviation /
            (norm_pdf central_value central_value left_deviation +
              norm_pdf central_value central_value right_deviation)) +
          norm_logpdf x central_value right_deviation := by
    intro x hx
    simp only [AsymmetricNormalDistribution.logpdf]
    rw [if_neg (not_lt.mpr hx)]
  have hcontL : Continuous (fun x : ℝ =>
      Real.exp (Real.log (2 * norm_pdf central_value central_value right_deviation /
          (norm_pdf central_value central_value left_deviation +
            norm_pdf central_value central_value right_deviation)) +
        norm_logpdf x central_value left_deviation)) := by
    unfold norm_logpdf
    fun_prop
  have hcontR : Continuous (fun x : ℝ =>
      Real.exp (Real.log (2 * norm_pdf central_value central_value left_deviation /
          (norm_pdf central_value central_value left_deviation +
            norm_pdf central_value central_value right_deviation)) +
        norm_logpdf x central_value right_deviation)) := by
    unfold norm_logpdf
    fun_prop
  have hvalL : Real.exp (Real.log (2 * norm_pdf central_value central_value right_deviation /
        (norm_pdf central_value central_value left_deviation +
          norm_pdf central_value central_value right_deviation)) +
      norm_logpdf central_value central_value left_deviation) =
      Real.exp (AsymmetricNormalDistribution.logpdf central_value right_deviation
        left_deviation central_value) := by
    rw [hright central_value le_rfl]
    rw [Real.exp_add, Real.exp_add]
    rw [Real.exp_log (by positivity), Real.exp_log (by positivity)]
    rw [show Real.exp (norm_logpdf central_value central_value left_deviation) =
        norm_pdf central_value central_value left_deviation from rfl]
    rw [show Real.exp (norm_logpdf central_value central_value right_deviation) =
        norm_pdf central_value central_value right_deviation from rfl]
    ring
  refine ⟨hleft, hright, ?_, ?_⟩
  · have h1 : Filter.Tendsto (fun x : ℝ =>
        Real.exp (Real.log (2 * norm_pdf central_value central_value right_deviation /
            (norm_pdf central_value central_value left_deviation +
              norm_pdf central_value central_value right_deviation)) +
          norm_logpdf x central_value left_deviation))
        (nhdsWithin central_value (Set.Iio central_value))
        (nhds (Real.exp (AsymmetricNormalDistribution.logpdf central_value right_deviation
          left_deviation central_value))) := by
      rw [← hvalL]
      exact hcontL.continuousAt.continuousWithinAt
    refine Filter.Tendsto.congr' ?_ h1
    refine Filter.eventuallyEq_of_mem self_mem_nhdsWithin ?_
    intro x hx
    exact congrArg Real.exp (hleft x hx).symm
  · have h1 : Filter.Tendsto (fun x : ℝ =>
        Real.exp (Real.log (2 * norm_pdf central_value central_value left_deviation /
            (norm_pdf central_value central_value left_deviation +
              norm_pdf central_value central_value right_deviation)) +
          norm_logpdf x central_value right_deviation))
        (nhdsWithin central_value (Set.Ioi central_value))
        (nhds (Real.exp (AsymmetricNormalDistribution.logpdf central_value right_deviation
          left_deviation central_value))) := by
      rw [hright central_value le_rfl]
      exact hcontR.continuousAt.continuousWithinAt
    refine Filter.Tendsto.congr' ?_ h1
    refine Filter.eventuallyEq_of_mem self_mem_nhdsWithin ?_
    intro x hx
    exact congrArg Real.exp (hright x (le_of_lt hx)).symm

/-- Witness for claim C6 at `c = 0`, `r = 1`, `l = 2`, evaluating the
left-branch formula at `x = -1`. -/
theorem claim_C6_asym_normal_continuous_witness :
    (-1 : ℝ) < 0 ∧
    AsymmetricNormalDistribution.logpdf 0 1 2 (-1) =
      Real.log (2 * norm_pdf 0 0 1 / (norm_pdf 0 0 2 + norm_pdf 0 0 1)) +
        norm_logpdf (-1) 0 2 :=
  ⟨by norm_num,
    (claim_C6_asym_normal_continuous 0 1 2 (by norm_num) (by norm_num)).1 (-1) (by norm_num)⟩

/-- Unfolding the two-or-more-knots case of `interpPoints`. -/
theorem interpPoints_cons_cons (p q : ℝ × ℝ) (rest : List (ℝ × ℝ)) (t : ℝ) :
    interpPoints (p :: q :: rest) t =
      if t ≤ q.1 then p.2 + (q.2 - p.2) / (q.1 - p.1) * (t - p.1)
      else interpPoints (q :: rest) t :=
  rfl

/-- On a well-formed knot table the interpolant never drops below the value
of the first knot, right of that knot. -/
theorem interpPoints_head_le (t : ℝ) :
    ∀ (ks : List (ℝ × ℝ)) (p : ℝ × ℝ), List.Chain' KnotRel (p :: ks) → p.1 ≤ t →
      p.2 ≤ interpPoints (p :: ks) t := by
  intro ks
  induction ks with
  | nil => intro p _ _; exact le_rfl
  | cons q rest ih =>
    intro p hchain hpt
    have hpq : KnotRel p q := (List.chain'_cons.mp hchain).1
    have hchain2 : List.Chain' KnotRel (q :: rest) := (List.chain'_cons.mp hchain).2
    by_cases hq : t ≤ q.1
    · rw [interpPoints_cons_cons, if_pos hq]
      have hden : 0 < q.1 - p.1 := sub_pos.mpr hpq.1
      have hslope : 0 ≤ (q.2 - p.2) / (q.1 - p.1) :=
        div_nonneg (by linarith [hpq.2]) hden.le
      have hterm : 0 ≤ (q.2 - p.2) / (q.1 - p.1) * (t - p.1) :=
        mul_nonneg hslope (by linarith)
      linarith
    · rw [interpPoints_cons_cons, if_neg hq]
      exact le_trans hpq.2 (ih q hchain2 (not_le.mp hq).le)

/-- Within the first segment the interpolant stays below the value of the
second knot. -/
theorem interpPoints_seg_le (p q : ℝ × ℝ) (rest : List (ℝ × ℝ)) (t : ℝ)
    (h1 : p.1 < q.1) (h2 : p.2 ≤ q.2) (ht : t ≤ q.1) :
    interpPoints (p :: q :: rest) t ≤ q.2 := by
  rw [interpPoints_cons_cons, if_pos ht]
  have hden : 0 < q.1 - p.1 := sub_pos.mpr h1
  have hslope : 0 ≤ (q.2 - p.2) / (q.1 - p.1) := div_nonneg (by linarith) hden.le
  have hmul : (q.2 - p.2) / (q.1 - p.1) * (t - p.1) ≤
      (q.2 - p.2) / (q.1 - p.1) * (q.1 - p.1) :=
    mul_le_mul_of_nonneg_left (by linarith) hslope
  rw [div_mul_cancel₀ _ hden.ne'] at hmul
  linarith

/-- The piecewise-linear interpolant over a well-formed knot table is
non-decreasing on the whole real line. -/
theorem interpPoints_mono :
    ∀ ks : List (ℝ × ℝ), List.Chain' KnotRel ks →
      ∀ t u : ℝ, t ≤ u → interpPoints ks t ≤ interpPoints ks u := by
  intro ks
  induction ks with
  | nil => intro _ t u _; exact le_rfl
  | cons p tail ih =>
    cases tail with
    | nil => intro _ t u _; exact le_rfl
    | cons q rest =>
      intro hchain t u htu
      have hpq : KnotRel p q := (List.chain'_cons.mp hchain).1
      have hchain2 : List.Chain' KnotRel (q :: rest) := (List.chain'_cons.mp hchain).2
      by_cases hu : u ≤ q.1
      · have ht : t ≤ q.1 := le_trans htu hu
        rw [interpPoints_cons_cons, interpPoints_cons_cons, if_pos ht, if_pos hu]
        have hden : 0 < q.1 - p.1 := sub_pos.mpr hpq.1
        have hslope : 0 ≤ (q.2 - p.2) / (q.1 - p.1) :=
          div_nonneg (by linarith [hpq.2]) hden.le
        have hm := mul_le_mul_of_nonneg_left
          (show t - p.1 ≤ u - p.1 by linarith) hslope
        linarith
      · by_cases ht : t ≤ q.1
        · calc interpPoints (p :: q :: rest) t ≤ q.2 :=
              interpPoints_seg_le p q rest t hpq.1 hpq.2 ht
            _ ≤ interpPoints (q :: rest) u :=
              interpPoints_head_le u rest q hchain2 (not_le.mp hu).le
            _ = interpPoints (p :: q :: rest) u := by
              rw [interpPoints_cons_cons, if_neg hu]
        · rw [interpPoints_cons_cons, interpPoints_cons_cons, if_neg ht, if_neg hu]
          exact ih hchain2 t u htu

/-- The interpolant is exact at the first knot. -/
theorem interpPoints_at_head (p : ℝ × ℝ) :
    ∀ ks : List (ℝ × ℝ), List.Chain' KnotRel (p :: ks) →
      interpPoints (p :: ks) p.1 = p.2 := by
  intro ks hchain
  cases ks with
  | nil => rfl
  | cons q rest =>
    have hpq : KnotRel p q := (List.chain'_cons.mp hchain).1
    rw [interpPoints_cons_cons, if_pos hpq.1.le]
    ring

/-- `getLastD` ignores its fallback on non-empty lists. -/
theorem getLastD_of_ne_nil {α : Type} : ∀ (l : List α) (a b : α), l ≠ [] →
    l.getLastD a = l.getLastD b := by
  intro l
  induction l with
  | nil => intro a b h; exact absurd rfl h
  | cons c t _ =>
    intro a b _
    cases t with
    | nil => rfl
    | cons d u => simp only [List.getLastD_cons]

/-- Along a well-formed knot table the first abscissa is strictly below the
last one. -/
theorem chain_fst_lt_getLastD (d : ℝ × ℝ) :
    ∀ (ks : List (ℝ × ℝ)) (p : ℝ × ℝ), List.Chain' KnotRel (p :: ks) → ks ≠ [] →
      p.1 < ((p :: ks).getLastD d).1 := by
  intro ks
  induction ks with
  | nil => intro p _ h; exact absurd rfl h
  | cons q rest ih =>
    intro p hchain _
    have hpq : KnotRel p q := (List.chain'_cons.mp hchain).1
    have hchain2 : List.Chain' KnotRel (q :: rest) := (List.chain'_cons.mp hchain).2
    cases rest with
    | nil =>
      simp only [List.getLastD_cons, List.getLastD_nil]
      exact hpq.1
    | cons r rr =>
      have hq := ih q hchain2 (by simp)
      rw [List.getLastD_cons]
      rw [getLastD_of_ne_nil (q :: r :: rr) p d (by simp)]
      exact lt_trans hpq.1 hq

/-- The interpolant is exact at the last knot. -/
theorem interpPoints_at_getLastD (d : ℝ × ℝ) :
    ∀ (ks : List (ℝ × ℝ)) (p : ℝ × ℝ), List.Chain' KnotRel (p :: ks) →
      interpPoints (p :: ks) (((p :: ks).getLastD d).1) = ((p :: ks).getLastD d).2 := by
  intro ks
  induction ks with
  | nil => intro p _; rfl
  | cons q rest ih =>
    intro p hchain
    have hpq : KnotRel p q := (List.chain'_cons.mp hchain).1
    have hchain2 : List.Chain' KnotRel (q :: rest) := (List.chain'_cons.mp hchain).2
    cases rest with
    | nil =>
      simp only [List.getLastD_cons, List.getLastD_nil]
      rw [interpPoints_cons_cons, if_pos le_rfl]
      have hden : q.1 - p.1 ≠ 0 := sub_ne_zero.mpr (ne_of_gt hpq.1)
      rw [div_mul_cancel₀ _ hden]
      ring
    | cons r rr =>
      have hlast := chain_fst_lt_getLastD d (r :: rr) q hchain2 (by simp)
      rw [List.getLastD_cons]
      rw [getLastD_of_ne_nil (q :: r :: rr) p d (by simp)]
      rw [interpPoints_cons_cons, if_neg (not_le.mpr hlast)]
      exact ih q hchain2

/-- Zipping a strictly increasing list with a non-decreasing list of the
same or greater length gives a well-formed knot table. -/
theorem zip_chain'_of_chain' :
    ∀ l1 l2 : List ℝ, List.Chain' (· < ·) l1 → List.Chain' (· ≤ ·) l2 →
      List.Chain' KnotRel (l1.zip l2) := by
  intro l1
  induction l1 with
  | nil => intro l2 _ _; simp
  | cons a t1 ih =>
    intro l2 h1 h2
    cases l2 with
    | nil => simp
    | cons b t2 =>
      cases t1 with
      | nil => simp
      | cons a2 t1b =>
        cases t2 with
        | nil => simp
        | cons b2 t2b =>
          rw [List.zip_cons_cons, List.zip_cons_cons]
          refine List.chain'_cons.mpr
            ⟨⟨(List.chain'_cons.mp h1).1, (List.chain'_cons.mp h2).1⟩, ?_⟩
          have := ih (b2 :: t2b) (List.chain'_cons.mp h1).2 (List.chain'_cons.mp h2).2
          rwa [List.zip_cons_cons] at this

/-- The last entry of a zip of equal-length lists is the pair of last
entries. -/
theorem zip_getLastD_of_length_eq (d1 d2 : ℝ) :
    ∀ l1 l2 : List ℝ, l1.length = l2.length → l1 ≠ [] →
      (l1.zip l2).getLastD (d1, d2) = (l1.getLastD d1, l2.getLastD d2) := by
  intro l1
  induction l1 with
  | nil => intro l2 _ h; exact absurd rfl h
  | cons a t1 ih =>
    intro l2 hlen _
    cases l2 with
    | nil => simp at hlen
    | cons b t2 =>
      cases t1 with
      | nil =>
        cases t2 with
        | nil => rfl
        | cons b2 t2b => simp at hlen
      | cons a2 t1b =>
        cases t2 with
        | nil => simp at hlen
        | cons b2 t2b =>
          have := ih (b2 :: t2b) (by simpa using hlen) (by simp)
          simp only [List.zip_cons_cons, List.getLastD_cons] at this ⊢
          exact this

/-- `cumsumFrom` preserves length. -/
theorem cumsumFrom_length : ∀ (l : List ℝ) (acc : ℝ),
    (cumsumFrom acc l).length = l.length := by
  intro l
  induction l with
  | nil => intro acc; rfl
  | cons a t ih => intro acc; simp [cumsumFrom, ih]

/-- Partial sums of positive summands are strictly increasing. -/
theorem cumsumFrom_chain :
    ∀ (l : List ℝ) (acc : ℝ), (∀ a ∈ l, 0 < a) →
      List.Chain' (· < ·) (cumsumFrom acc l) := by
  intro l
  induction l with
  | nil => intro acc _; simp [cumsumFrom]
  | cons a t ih =>
    intro acc h
    cases t with
    | nil => simp [cumsumFrom]
    | cons b u =>
      have hb : 0 < b := h b (by simp)
      have htail := ih (acc + a) fun z hz => h z (List.mem_cons_of_mem a hz)
      show List.Chain' (· < ·) ((acc + a) :: cumsumFrom (acc + a) (b :: u))
      rw [show cumsumFrom (acc + a) (b :: u) =
        (acc + a + b) :: cumsumFrom (acc + a + b) u from rfl]
      refine List.chain'_cons.mpr ⟨by linarith, ?_⟩
      rw [show (acc + a + b) :: cumsumFrom (acc + a + b) u =
        cumsumFrom (acc + a) (b :: u) from rfl]
      exact htail

/-- The last partial sum is the starting value plus the total sum. -/
theorem cumsumFrom_getLastD (d : ℝ) :
    ∀ (l : List ℝ) (acc : ℝ), l ≠ [] →
      (cumsumFrom acc l).getLastD d = acc + l.sum := by
  intro l
  induction l with
  | nil => intro acc h; exact absurd rfl h
  | cons a t ih =>
    intro acc _
    cases t with
    | nil => simp [cumsumFrom]
    | cons b u =>
      have hne : cumsumFrom (acc + a) (b :: u) ≠ [] := by
        rw [show cumsumFrom (acc + a) (b :: u) =
          (acc + a + b) :: cumsumFrom (acc + a + b) u from rfl]
        exact List.cons_ne_nil _ _
      rw [show cumsumFrom acc (a :: b :: u) =
          (acc + a) :: cumsumFrom (acc + a) (b :: u) from rfl,
        List.getLastD_cons, getLastD_of_ne_nil _ (acc + a) d hne,
        ih (acc + a) (by simp)]
      simp only [List.sum_cons]
      ring

/-- Pushing the last value through a `map`. -/
theorem map_getLastD {α β : Type} (f : α → β) : ∀ (l : List α) (d : α),
    (l.map f).getLastD (f d) = f (l.getLastD d) := by
  intro l
  induction l with
  | nil => intro d; rfl
  | cons a t ih =>
    intro d
    rw [List.map_cons, List.getLastD_cons, List.getLastD_cons, ih]

/-- Summing a list rescaled by a constant. -/
theorem sum_map_mul_const : ∀ l : List ℝ, ∀ k : ℝ,
    (l.map fun yi => yi * k).sum = l.sum * k := by
  intro l
  induction l with
  | nil => intro k; simp
  | cons a t ih =>
    intro k
    simp only [List.map_cons, List.sum_cons, ih]
    ring

/-- Overwriting the last element with the value it already holds is the
identity. -/
theorem setLast_eq_self : ∀ (l : List ℝ) (v : ℝ), l.getLastD v = v → setLast l v = l := by
  intro l
  induction l with
  | nil => intro v _; rfl
  | cons a t ih =>
    intro v h
    cases t with
    | nil =>
      have ha : a = v := by simpa using h
      rw [show setLast [a] v = [v] from rfl, ha]
    | cons b u =>
      rw [show setLast (a :: b :: u) v = a :: setLast (b :: u) v from rfl]
      rw [List.getLastD_cons] at h
      rw [getLastD_of_ne_nil (b :: u) a v (by simp)] at h
      rw [ih v h]

/-- Along a strictly increasing real list the head is strictly below the
last element. -/
theorem chain_lt_head_lt_getLastD (d : ℝ) :
    ∀ (l : List ℝ) (a : ℝ), List.Chain' (· < ·) (a :: l) → l ≠ [] →
      a < ((a :: l).getLastD d) := by
  intro l
  induction l with
  | nil => intro a _ h; exact absurd rfl h
  | cons q rest ih =>
    intro a hchain _
    have hpq : a < q := (List.chain'_cons.mp hchain).1
    have hchain2 : List.Chain' (· < ·) (q :: rest) := (List.chain'_cons.mp hchain).2
    cases rest with
    | nil =>
      simp only [List.getLastD_cons, List.getLastD_nil]
      exact hpq
    | cons r rr =>
      have hq := ih q hchain2 (by simp)
      rw [List.getLastD_cons]
      rw [getLastD_of_ne_nil (q :: r :: rr) a d (by simp)]
      exact lt_trans hpq hq

/-- Structure of the clamped CDF values: for strictly positive samples and
positive total `S` and range `R`, the list starts at exactly `0`, ends at
exactly `1`, is strictly increasing, and keeps its length. -/
theorem clampedCdf_structure (ys : List ℝ) (S R : ℝ) (hS : 0 < S) (hR : 0 < R)
    (hsum : ys.sum = S) (hlen2 : 2 ≤ ys.length) (hy : ∀ yi ∈ ys, 0 < yi) :
    ∃ tail : List ℝ,
      setLast (setFirst ((cumsumFrom 0 (ys.map fun yi => yi / S * R)).map
          fun v => v / R) 0) 1 = 0 :: tail ∧
      List.Chain' (· < ·) (0 :: tail) ∧
      (0 :: tail).getLastD 0 = 1 ∧
      (0 :: tail).length = ys.length := by
  obtain ⟨y0, y1, yr, rfl⟩ : ∃ y0 y1 yr, ys = y0 :: y1 :: yr := by
    match ys, hlen2 with
    | y0 :: y1 :: yr, _ => exact ⟨y0, y1, yr, rfl⟩
    | [], h =>
      simp only [List.length_nil] at h
      omega
    | [y0], h =>
      simp only [List.length_cons, List.length_nil] at h
      omega
  have hy0 : 0 < y0 := hy y0 (by simp)
  have hy1 : 0 < y1 := hy y1 (by simp)
  have hypos : ∀ z ∈ (y0 :: y1 :: yr).map (fun yi => yi / S * R), 0 < z := by
    intro z hz
    rcases List.mem_map.mp hz with ⟨yi, hyi, rfl⟩
    exact mul_pos (div_pos (hy yi hyi) hS) hR
  have hchain0 : List.Chain' (· < ·)
      ((cumsumFrom 0 ((y0 :: y1 :: yr).map fun yi => yi / S * R)).map fun v => v / R) := by
    refine (List.chain'_map _).mpr ?_
    refine (cumsumFrom_chain _ 0 hypos).imp ?_
    intro a b hab
    have := mul_lt_mul_of_pos_right hab (inv_pos.mpr hR)
    simpa [div_eq_mul_inv] using this
  have hcdf0 : ((cumsumFrom 0 ((y0 :: y1 :: yr).map fun yi => yi / S * R)).map
      fun v => v / R) =
      ((0 + y0 / S * R) / R) :: ((0 + y0 / S * R + y1 / S * R) / R) ::
        ((cumsumFrom (0 + y0 / S * R + y1 / S * R) (yr.map fun yi => yi / S * R)).map
          fun v => v / R) := rfl
  have hsum2 : ((y0 :: y1 :: yr).map fun yi => yi / S * R).sum = S * (R / S) := by
    have hf : (fun yi : ℝ => yi / S * R) = fun yi : ℝ => yi * (R / S) := by
      funext yi
      ring
    rw [hf, sum_map_mul_const, hsum]
  have hlast0 : (((cumsumFrom 0 ((y0 :: y1 :: yr).map fun yi => yi / S * R)).map
      fun v => v / R)).getLastD 0 = 1 := by
    have hne2 : ((cumsumFrom 0 ((y0 :: y1 :: yr).map fun yi => yi / S * R)).map
        fun v => v / R) ≠ [] := by
      rw [hcdf0]
      exact List.cons_ne_nil _ _
    rw [getLastD_of_ne_nil _ 0 ((0 : ℝ) / R) hne2,
      map_getLastD (fun v => v / R) _ 0,
      cumsumFrom_getLastD 0 _ 0 (by simp), hsum2]
    field_simp
  refine ⟨((0 + y0 / S * R + y1 / S * R) / R) ::
    ((cumsumFrom (0 + y0 / S * R + y1 / S * R) (yr.map fun yi => yi / S * R)).map
      fun v => v / R), ?_, ?_, ?_, ?_⟩
  · have htail0 : (((0 + y0 / S * R + y1 / S * R) / R) ::
        ((cumsumFrom (0 + y0 / S * R + y1 / S * R) (yr.map fun yi => yi / S * R)).map
          fun v => v / R)).getLastD 0 = 1 := by
      have h := hlast0
      rw [hcdf0, List.getLastD_cons,
        getLastD_of_ne_nil _ ((0 + y0 / S * R) / R) 0 (List.cons_ne_nil _ _)] at h
      exact h
    rw [hcdf0]
    rw [show setFirst (((0 + y0 / S * R) / R) :: ((0 + y0 / S * R + y1 / S * R) / R) ::
        ((cumsumFrom (0 + y0 / S * R + y1 / S * R) (yr.map fun yi => yi / S * R)).map
          fun v => v / R)) 0 =
        0 :: ((0 + y0 / S * R + y1 / S * R) / R) ::
        ((cumsumFrom (0 + y0 / S * R + y1 / S * R) (yr.map fun yi => yi / S * R)).map
          fun v => v / R) from rfl]
    apply setLast_eq_self
    rw [List.getLastD_cons]
    exact htail0
  · have hc1 : 0 < (0 + y0 / S * R + y1 / S * R) / R := by
      have ha : 0 < y0 / S * R := mul_pos (div_pos hy0 hS) hR
      have hb : 0 < y1 / S * R := mul_pos (div_pos hy1 hS) hR
      have : 0 < 0 + y0 / S * R + y1 / S * R := by linarith
      exact div_pos this hR
    refine List.chain'_cons.mpr ⟨hc1, ?_⟩
    have h := hchain0
    rw [hcdf0] at h
    exact (List.chain'_cons.mp h).2
  · have h := hlast0
    rw [hcdf0, List.getLastD_cons,
      getLastD_of_ne_nil _ ((0 + y0 / S * R) / R) 0 (List.cons_ne_nil _ _)] at h
    rw [List.getLastD_cons]
    exact h
  · simp only [List.length_cons, List.length_map, cumsumFrom_length, List.length_map]

/-- Structure of `numericalCdf` on a strictly increasing grid with strictly
positive samples: exact `0` start, exact `1` end, strictly increasing, one
entry per grid point. -/
theorem numericalCdf_structure (x y : List ℝ) (hlen : y.length = x.length)
    (hn : 2 ≤ x.length) (hx : List.Chain' (· < ·) x) (hy : ∀ yi ∈ y, 0 < yi) :
    ∃ tail : List ℝ,
      numericalCdf x y = 0 :: tail ∧
      List.Chain' (· < ·) (0 :: tail) ∧
      (0 :: tail).getLastD 0 = 1 ∧
      (0 :: tail).length = x.length := by
  have hyne : y ≠ [] := by
    intro hcon
    rw [hcon] at hlen
    simp only [List.length_nil] at hlen
    omega
  have hS : 0 < y.sum := List.sum_pos y hy hyne
  have hR : 0 < x.getLastD 0 - x.headD 0 := by
    obtain ⟨x0, xt, rfl⟩ : ∃ x0 xt, x = x0 :: xt := by
      match x, hn with
      | x0 :: xt, _ => exact ⟨x0, xt, rfl⟩
      | [], h =>
        simp only [List.length_nil] at h
        omega
    have hxt : xt ≠ [] := by
      intro hcon
      rw [hcon] at hn
      simp only [List.length_cons, List.length_nil] at hn
      omega
    have := chain_lt_head_lt_getLastD 0 xt x0 hx hxt
    simp only [List.headD_cons]
    linarith
  have h2y : 2 ≤ y.length := by omega
  obtain ⟨tail, h1, h2, h3, h4⟩ := clampedCdf_structure y y.sum
    (x.getLastD 0 - x.headD 0) hS hR rfl h2y hy
  exact ⟨tail, h1, h2, h3, by omega⟩

/-- Claim C8, amended: for a strictly increasing abscissa list and strictly
positive density samples, the inverse-CDF interpolant built by
`NumericalDistribution.__init__` is non-decreasing and maps cumulative
probability `0` to `x[0]` and `1` to `x[-1]` exactly, thanks to the
clamping of the first and last CDF values. -/
theorem claim_C8_numerical_ppf (x y : List ℝ) (hlen : y.length = x.length)
    (hn : 2 ≤ x.length) (hx : List.Chain' (· < ·) x) (hy : ∀ yi ∈ y, 0 < yi) :
    (∀ t u : ℝ, t ≤ u →
      interpPoints (ppfKnots x y) t ≤ interpPoints (ppfKnots x y) u) ∧
    interpPoints (ppfKnots x y) 0 = x.headD 0 ∧
    interpPoints (ppfKnots x y) 1 = x.getLastD 0 := by
  obtain ⟨tail, hcdf, hchain, hlast, hlencdf⟩ := numericalCdf_structure x y hlen hn hx hy
  obtain ⟨x0, xt, rfl⟩ : ∃ x0 xt, x = x0 :: xt := by
    match x, hn with
    | x0 :: xt, _ => exact ⟨x0, xt, rfl⟩
    | [], h =>
      simp only [List.length_nil] at h
      omega
  have hknots : ppfKnots (x0 :: xt) y = (0, x0) :: tail.zip xt := by
    rw [ppfKnots, hcdf, List.zip_cons_cons]
  have hkchain : List.Chain' KnotRel ((0, x0) :: tail.zip xt) := by
    have := zip_chain'_of_chain' (0 :: tail) (x0 :: xt) hchain
      (hx.imp fun a b h => le_of_lt h)
    rwa [List.zip_cons_cons] at this
  refine ⟨?_, ?_, ?_⟩
  · intro t u htu
    rw [hknots]
    exact interpPoints_mono _ hkchain t u htu
  · rw [hknots]
    have h := interpPoints_at_head (0, x0) (tail.zip xt) hkchain
    simpa using h
  · rw [hknots]
    have hzl : ((0 :: tail).zip (x0 :: xt)).getLastD (0, 0) =
        ((0 :: tail).getLastD 0, (x0 :: xt).getLastD 0) :=
      zip_getLastD_of_length_eq 0 0 (0 :: tail) (x0 :: xt) hlencdf (by simp)
    have hinterp := interpPoints_at_getLastD (0, 0) (tail.zip xt) (0, x0) hkchain
    rw [show (0, x0) :: tail.zip xt = (0 :: tail).zip (x0 :: xt) from by
      rw [List.zip_cons_cons]] at hinterp
    rw [hzl, hlast] at hinterp
    simpa [List.zip_cons_cons] using hinterp

/-- Witness for the amended claim C8 on the grid `x = [0,1]`, `y = [1,1]`. -/
theorem claim_C8_numerical_ppf_witness :
    (∀ t u : ℝ, t ≤ u →
      interpPoints (ppfKnots [0, 1] [1, 1]) t ≤ interpPoints (ppfKnots [0, 1] [1, 1]) u) ∧
    interpPoints (ppfKnots [0, 1] [1, 1]) 0 = ([0, 1] : List ℝ).headD 0 ∧
    interpPoints (ppfKnots [0, 1] [1, 1]) 1 = ([0, 1] : List ℝ).getLastD 0 :=
  claim_C8_numerical_ppf [0, 1] [1, 1] rfl (by simp)
    (by simp [List.chain'_cons, List.chain'_singleton])
    (by intro yi h; fin_cases h <;> norm_num)

/-- Counterexample to claim C8 as stated (`y` merely non-negative): with
`x = [0,1,2]` and `y = [1,1,0]` (a trailing zero sample), the cumulative sum
already reaches `1` at the second grid point, so the inverse-CDF interpolant
maps cumulative probability `1` to `1`, not to `x[-1] = 2`. -/
theorem claim_C8_counterexample :
    List.Chain' (· < ·) ([0, 1, 2] : List ℝ) ∧
    (∀ yi ∈ ([1, 1, 0] : List ℝ), 0 ≤ yi) ∧
    interpPoints (ppfKnots [0, 1, 2] [1, 1, 0]) 1 = 1 ∧
    ([0, 1, 2] : List ℝ).getLastD 0 = 2 ∧ (1 : ℝ) ≠ 2 := by
  have hcdf : numericalCdf [0, 1, 2] [1, 1, 0] = [0, 1, 1] := by
    simp only [numericalCdf, cumsum, cumsumFrom, setFirst, setLast, List.map_cons,
      List.map_nil, List.sum_cons, List.sum_nil, List.getLastD_cons, List.getLastD_nil,
      List.headD_cons]
    norm_num
  have hknots : ppfKnots [0, 1, 2] [1, 1, 0] =
      [((0 : ℝ), (0 : ℝ)), (1, 1), (1, 2)] := by
    rw [ppfKnots, hcdf]
    rfl
  refine ⟨?_, ?_, ?_, rfl, by norm_num⟩
  · simp [List.chain'_cons, List.chain'_singleton]
  · intro yi h
    fin_cases h <;> norm_num
  · rw [hknots, interpPoints_cons_cons, if_pos (by norm_num)]
    norm_num

/-- The diagonal entries of a positive-definite real matrix are strictly
positive. -/
theorem posDef_diag_pos {k : ℕ} {S : Matrix (Fin k) (Fin k) ℝ} (hS : S.PosDef)
    (i : Fin k) : 0 < S i i := by
  have hne : (Pi.single i (1 : ℝ) : Fin k → ℝ) ≠ 0 := by
    intro hcon
    have h1 := congrFun hcon i
    simp at h1
  have h := hS.2 (Pi.single i 1) hne
  simp only [star_trivial, Matrix.mulVec_single, Matrix.single_dotProduct, one_mul,
    mul_one] at h
  exact h

/-- The variance-rescaling trick of `MultivariateNormalDistribution.logpdf`
is exact for any strictly positive rescaling vector `e` and any covariance
with positive determinant: evaluating the reference log-density at
`x/e`, `c/e` on the rescaled covariance and adding
`log(det(S_scaled)/det S)/2` recovers the reference log-density at `x`. -/
theorem mvn_logpdf_rescale {k : ℕ} (x c : Fin k → ℝ) (S : Matrix (Fin k) (Fin k) ℝ)
    (e : Fin k → ℝ) (he : ∀ i, 0 < e i) (hdet : 0 < S.det) :
    multivariate_normal_logpdf (fun i => x i / e i) (fun i => c i / e i)
        (Matrix.of fun i j => S i j / (e i * e j)) +
      Real.log ((Matrix.of fun i j => S i j / (e i * e j)).det / S.det) / 2 =
    multivariate_normal_logpdf x c S := by
  set D : Matrix (Fin k) (Fin k) ℝ := Matrix.diagonal e with hD
  set E : Matrix (Fin k) (Fin k) ℝ := Matrix.diagonal (fun i => (e i)⁻¹) with hE
  have hDE : D * E = 1 := by
    rw [hD, hE, Matrix.diagonal_mul_diagonal]
    have h1 : (fun i => e i * (e i)⁻¹) = fun _ : Fin k => (1 : ℝ) := by
      funext i
      simp [mul_inv_cancel₀ (he i).ne']
    rw [h1, Matrix.diagonal_one]
  have hED : E * D = 1 := by
    rw [hD, hE, Matrix.diagonal_mul_diagonal]
    have h1 : (fun i => (e i)⁻¹ * e i) = fun _ : Fin k => (1 : ℝ) := by
      funext i
      simp [inv_mul_cancel₀ (he i).ne']
    rw [h1, Matrix.diagonal_one]
  have hSs : (Matrix.of fun i j => S i j / (e i * e j)) = E * S * E := by
    ext i j
    rw [hE, Matrix.mul_diagonal, Matrix.diagonal_mul]
    simp only [Matrix.of_apply]
    field_simp
  have hdetE : E.det = ∏ i, (e i)⁻¹ := by rw [hE, Matrix.det_diagonal]
  have hprodpos : 0 < ∏ i, (e i)⁻¹ :=
    Finset.prod_pos fun i _ => inv_pos.mpr (he i)
  have hdetSs : (Matrix.of fun i j => S i j / (e i * e j)).det =
      (∏ i, (e i)⁻¹) * S.det * (∏ i, (e i)⁻¹) := by
    rw [hSs, Matrix.det_mul, Matrix.det_mul, hdetE]
  have hdetSs_pos : 0 < (Matrix.of fun i j => S i j / (e i * e j)).det := by
    rw [hdetSs]
    exact mul_pos (mul_pos hprodpos hdet) hprodpos
  have hEinv : E⁻¹ = D := Matrix.inv_eq_right_inv hED
  have hinv : (Matrix.of fun i j => S i j / (e i * e j))⁻¹ = D * S⁻¹ * D := by
    rw [hSs, Matrix.mul_inv_rev, Matrix.mul_inv_rev, hEinv]
    rw [Matrix.mul_assoc]
  have hvec : ((fun i => x i / e i) - fun i => c i / e i) = E *ᵥ (x - c) := by
    funext i
    rw [hE]
    simp only [Pi.sub_apply, Matrix.mulVec_diagonal]
    ring
  have hQ : dotProduct ((fun i => x i / e i) - fun i => c i / e i)
      ((Matrix.of fun i j => S i j / (e i * e j))⁻¹ *ᵥ
        ((fun i => x i / e i) - fun i => c i / e i)) =
      dotProduct (x - c) (S⁻¹ *ᵥ (x - c)) := by
    rw [hvec, hinv]
    rw [Matrix.mulVec_mulVec]
    have hassoc : D * S⁻¹ * D * E = D * S⁻¹ := by
      rw [Matrix.mul_assoc (D * S⁻¹) D E, hDE, Matrix.mul_one]
    rw [hassoc]
    rw [← Matrix.mulVec_mulVec]
    rw [hD, hE]
    simp only [Matrix.dotProduct, Matrix.mulVec_diagonal]
    refine Finset.sum_congr rfl ?_
    intro i _
    rw [show (e i)⁻¹ * (x - c) i * (e i * (S⁻¹ *ᵥ (x - c)) i) =
      ((e i)⁻¹ * e i) * ((x - c) i * (S⁻¹ *ᵥ (x - c)) i) from by ring,
      inv_mul_cancel₀ (he i).ne', one_mul]
  have hlogdiv : Real.log ((Matrix.of fun i j => S i j / (e i * e j)).det / S.det) =
      Real.log (Matrix.of fun i j => S i j / (e i * e j)).det - Real.log S.det :=
    Real.log_div hdetSs_pos.ne' hdet.ne'
  simp only [multivariate_normal_logpdf]
  rw [hQ, hlogdiv]
  ring

/-- Claim C3: for a strictly positive-definite covariance,
`MultivariateNormalDistribution.logpdf` — computed by rescaling the point
and the central value by the per-component standard deviations, evaluating
the multivariate-normal log-density on the rescaled covariance, and adding
`log(det(S_scaled)/det S)/2` — equals the ordinary unscaled
multivariate-normal log-density, in exact real arithmetic. -/
theorem claim_C3_mvn_logpdf {k : ℕ} (central_value x : Fin k → ℝ)
    (covariance : Matrix (Fin k) (Fin k) ℝ) (hpd : covariance.PosDef) :
    MultivariateNormalDistribution.logpdf central_value covariance x =
      multivariate_normal_logpdf x central_value covariance := by
  have he : ∀ i, 0 < Real.sqrt (covariance i i) := fun i =>
    Real.sqrt_pos.mpr (posDef_diag_pos hpd i)
  exact mvn_logpdf_rescale x central_value covariance
    (fun i => Real.sqrt (covariance i i)) he hpd.det_pos

/-- Witness for claim C3 at the one-dimensional identity covariance. -/
theorem claim_C3_mvn_logpdf_witness :
    (1 : Matrix (Fin 1) (Fin 1) ℝ).PosDef ∧
    MultivariateNormalDistribution.logpdf (fun _ => (0 : ℝ))
        (1 : Matrix (Fin 1) (Fin 1) ℝ) (fun _ => 1) =
      multivariate_normal_logpdf (fun _ => (1 : ℝ)) (fun _ => 0)
        (1 : Matrix (Fin 1) (Fin 1) ℝ) :=
  ⟨Matrix.PosDef.one,
    claim_C3_mvn_logpdf (fun _ => 0) (fun _ => 1) 1 Matrix.PosDef.one⟩

end Flavio
